import Mathlib

/-!
Verification model of `src/cpm.hpp` (namespace `cpm`, template class
`Instance<Result, Input, Model>`): an asynchronous batching engine with
a FIFO work queue, a single worker thread, per-item promise/future
result handles, and a start/stop lifecycle around an owned model.

Shallow embedding. Each `std::promise<Result>` is identified by a fresh
natural number (`Item.pro`); resolving a promise (`set_value`) appends
a `(promise id, value)` pair to a resolution log. The queue holds
`(promise id, input)` pairs in FIFO order (head = front). Every batch
handed to `model->forwards` is also recorded in a `batches` log so that
"this item was passed to the model" is observable. Lock-protected
critical sections of the C++ code become single atomic operations on
the state; wake signals (`cond_.notify_one()`) are returned as counts
alongside the new state rather than stored in it.
-/

namespace cpm

/-- Engine state: the fields of `cpm::Instance` plus the observation
logs. `nextId` is the supply of fresh promise identities; `queue` is
`input_queue_` (head = front); `log` records every `set_value` call in
order; `batches` records every input batch passed to `forwards`;
`run` is `run_`; `maxItems` is `max_items_processed_`; `stream` is
`stream_`; `workerAlive` is whether `worker_` holds a thread handle. -/
@[ext]
structure State (Input Result Ctx : Type) where
  nextId : Nat
  queue : List (Nat × Input)
  log : List (Nat × Result)
  batches : List (List (Nat × Input))
  run : Bool
  maxItems : Nat
  stream : Ctx
  workerAlive : Bool

variable {Input Result Ctx Model : Type}

/-- The flush loop inside `Instance::stop`: while the queue is nonempty,
resolve the front item's promise to `Result()` (the default value) and
pop it. Returns the list of `set_value` events the loop performs. -/
def flushQueue [Inhabited Result] : List (Nat × Input) → List (Nat × Result)
  | [] => []
  | (id, _) :: rest => (id, (default : Result)) :: flushQueue rest

/-- `Instance::stop`: clear `run_`, signal the condition variable once,
flush every queued item to a default `Result`, then join and reset the
worker thread if one exists. Returns the new state and the number of
wake signals issued. -/
def stop [Inhabited Result] (s : State Input Result Ctx) :
    State Input Result Ctx × Nat :=
  let s1 : State Input Result Ctx := { s with run := false }
  let s2 : State Input Result Ctx :=
    { s1 with log := s1.log ++ flushQueue s1.queue, queue := [] }
  let s3 : State Input Result Ctx :=
    if s2.workerAlive then { s2 with workerAlive := false } else s2
  (s3, 1)

/-- `Instance::~Instance`: destruction performs a full `stop()`. -/
def destruct [Inhabited Result] (s : State Input Result Ctx) :
    State Input Result Ctx :=
  (stop s).1

/-- `Instance::commit`: build an `Item` with a fresh promise, push it at
the back of the queue under the lock, signal once, and return the
future. Returns (promise id of the returned future, new state, number
of wake signals). The run flag is never consulted. -/
def commit (x : Input) (s : State Input Result Ctx) :
    Nat × State Input Result Ctx × Nat :=
  let id := s.nextId
  (id, { s with nextId := id + 1, queue := s.queue ++ [(id, x)] }, 1)

/-- The enqueue loop inside `Instance::commits`: for each input in
order, build an `Item` with a fresh promise, record its future in the
output vector, and push it. Runs entirely inside one critical section. -/
def commitsLoop : List Input → State Input Result Ctx →
    List Nat × State Input Result Ctx
  | [], s => ([], s)
  | x :: xs, s =>
    let id := s.nextId
    let s1 : State Input Result Ctx :=
      { s with nextId := id + 1, queue := s.queue ++ [(id, x)] }
    let rest := commitsLoop xs s1
    (id :: rest.1, rest.2)

/-- `Instance::commits`: run the enqueue loop under a single lock, then
signal the condition variable once. Returns (futures in input order,
new state, number of wake signals). -/
def commits (xs : List Input) (s : State Input Result Ctx) :
    List Nat × State Input Result Ctx × Nat :=
  let r := commitsLoop xs s
  (r.1, r.2, 1)

/-- The drain loop inside `Instance::get_items_and_wait`:
`for (i = 0; i < max_size && !queue.empty(); ++i)` move the front item
into `fetch_items` and pop it. Returns (fetched items, remaining
queue). -/
def drainLoop : Nat → List (Nat × Input) →
    List (Nat × Input) × List (Nat × Input)
  | 0, q => ([], q)
  | _ + 1, [] => ([], [])
  | n + 1, it :: q =>
    let r := drainLoop n q
    (it :: r.1, r.2)

/-- The result-distribution loop inside `Instance::worker`: for each
fetched item at position `i`, `set_value(ret[i])` if `i < ret.size()`,
otherwise `set_value(Result())`. Returns the `set_value` events in
order. -/
def distribute [Inhabited Result] :
    List (Nat × Input) → List Result → List (Nat × Result)
  | [], _ => []
  | (id, _) :: fs, r :: rs => (id, r) :: distribute fs rs
  | (id, _) :: fs, [] => (id, (default : Result)) :: distribute fs []

/-- One iteration of the worker loop (`Instance::worker` body together
with `get_items_and_wait`), at the granularity of the queue lock: if
the run flag is cleared the worker exits (state unchanged here); if the
queue is empty the worker stays blocked on `cond_.wait`; otherwise it
drains up to `max_items_processed_` items from the front, calls
`model->forwards(inputs, stream_)` on the drained inputs in queue
order, and distributes the returned results to the items' promises. -/
def workerCycle [Inhabited Result]
    (fw : List Input → Ctx → List Result)
    (s : State Input Result Ctx) : State Input Result Ctx :=
  if s.run = false then s
  else if s.queue.isEmpty then s
  else
    let d := drainLoop s.maxItems s.queue
    let ret := fw (d.1.map Prod.snd) s.stream
    { s with queue := d.2,
             log := s.log ++ distribute d.1 ret,
             batches := s.batches ++ [d.1] }

/-- `Instance::start`: perform a full `stop()` of any prior run, store
the stream and batch cap, spawn the worker thread, and block on the
status future. The spawned worker calls `loadmethod()` once: on a null
model it reports `false` and returns (the run flag is never set); on
success it sets `run_`, reports `true`, and enters its loop. `loaded`
is the value `loadmethod()` returns. The returned `Bool` is the value
`start` reads from the status future. -/
def start [Inhabited Result] (loaded : Option Model) (maxItems : Nat)
    (ctx : Ctx) (s : State Input Result Ctx) :
    Bool × State Input Result Ctx :=
  let s1 := (stop s).1
  let s2 : State Input Result Ctx :=
    { s1 with stream := ctx, maxItems := maxItems, workerAlive := true }
  match loaded with
  | none => (false, s2)
  | some _ => (true, { s2 with run := true })

/-- Observable effects of the worker thread body (`Instance::worker`),
in program order: the single `loadmethod()` call, the status-promise
write, writes to `run_`, each `model->forwards` call tagged with the
model it is invoked on, and the final `model.reset()`. -/
inductive WEffect (Model : Type) where
  | loadCall
  | statusSet (ok : Bool)
  | runSet (b : Bool)
  | forwardsCall (m : Model)
  | modelReset

/-- Effect trace of one execution of `Instance::worker`, given the
model `loadmethod()` returned and the number of loop iterations that
called `forwards` before the run stopped. Null model: report failure
and return at once. Otherwise: set `run_`, report success, run the
loop (each iteration calls `forwards` on the same loaded model), then
release the model and clear `run_`. -/
def workerEffects (loaded : Option Model) (ncycles : Nat) :
    List (WEffect Model) :=
  WEffect.loadCall ::
    match loaded with
    | none => [WEffect.statusSet false]
    | some m =>
      WEffect.runSet true :: WEffect.statusSet true ::
        (List.replicate ncycles (WEffect.forwardsCall m) ++
          [WEffect.modelReset, WEffect.runSet false])

/-- Number of `loadmethod()` calls in an effect trace. -/
def countLoad : List (WEffect Model) → Nat
  | [] => 0
  | WEffect.loadCall :: es => countLoad es + 1
  | _ :: es => countLoad es

/-- Number of `model.reset()` releases in an effect trace. -/
def countReset : List (WEffect Model) → Nat
  | [] => 0
  | WEffect.modelReset :: es => countReset es + 1
  | _ :: es => countReset es

/-- The model a `forwards` effect is invoked on, if the effect is a
`forwards` call. -/
def forwardsTarget : WEffect Model → Option Model
  | WEffect.forwardsCall m => some m
  | _ => none

/-- Events an engine instance can undergo, at the granularity of its
lock-protected critical sections: a producer `commit`, a producer
`commits`, one worker-loop iteration, and a `stop`. -/
inductive Event (Input : Type) where
  | commit (x : Input)
  | commits (xs : List Input)
  | cycle
  | stop

/-- Apply one event to the state (wake counts and returned futures
discarded). -/
def step [Inhabited Result] (fw : List Input → Ctx → List Result)
    (s : State Input Result Ctx) : Event Input → State Input Result Ctx
  | Event.commit x => (cpm.commit x s).2.1
  | Event.commits xs => (cpm.commits xs s).2.1
  | Event.cycle => workerCycle fw s
  | Event.stop => (cpm.stop s).1

/-- Apply a sequence of events left to right. -/
def runTrace [Inhabited Result] (fw : List Input → Ctx → List Result)
    (s : State Input Result Ctx) (tr : List (Event Input)) :
    State Input Result Ctx :=
  tr.foldl (step fw) s

/-- How many times promise `id` has been resolved (`set_value`d). -/
def resolveCount (id : Nat) (s : State Input Result Ctx) : Nat :=
  (s.log.map Prod.fst).count id

/-- How many queue entries carry promise `id`. -/
def queueCount (id : Nat) (s : State Input Result Ctx) : Nat :=
  (s.queue.map Prod.fst).count id

/-- Specification helper: the contiguous block of items that a run of
the enqueue loop starting at fresh id `n` builds from `xs`. -/
def tagFrom (n : Nat) : List Input → List (Nat × Input)
  | [] => []
  | x :: xs => (n, x) :: tagFrom (n + 1) xs

/-- State invariant for the promise protocol: every queued item and
every logged resolution carries an already-allocated promise id, and
each allocated promise is, at any moment, either still queued (once)
or already resolved (once) — the resolution count and queue count of
each allocated id sum to one. -/
def Inv (s : State Input Result Ctx) : Prop :=
  (∀ p ∈ s.queue, p.1 < s.nextId) ∧
  (∀ e ∈ s.log, e.1 < s.nextId) ∧
  ∀ id, id < s.nextId → resolveCount id s + queueCount id s = 1

/-! Helper lemmas about the embedded operations. -/

theorem flushQueue_eq_map [Inhabited Result] (q : List (Nat × Input)) :
    @flushQueue Input Result _ q =
      q.map (fun p => (p.1, (default : Result))) := by
  induction q with
  | nil => rfl
  | cons p rest ih =>
    obtain ⟨a, b⟩ := p
    simp [flushQueue, ih]

theorem stop_def [Inhabited Result] (s : State Input Result Ctx) :
    stop s =
      ({ s with run := false,
                log := s.log ++ s.queue.map (fun p => (p.1, (default : Result))),
                queue := [], workerAlive := false }, 1) := by
  obtain ⟨n, q, l, b, r, mi, st, w⟩ := s
  simp only [stop, flushQueue_eq_map]
  cases w <;> simp

theorem drainLoop_eq (n : Nat) (q : List (Nat × Input)) :
    drainLoop n q = (q.take n, q.drop n) := by
  induction n generalizing q with
  | zero => simp [drainLoop]
  | succ n ih =>
    cases q with
    | nil => simp [drainLoop]
    | cons x q => simp [drainLoop, ih]

theorem distribute_map_fst [Inhabited Result] (fs : List (Nat × Input))
    (rs : List Result) :
    (distribute fs rs).map Prod.fst = fs.map Prod.fst := by
  induction fs generalizing rs with
  | nil => rfl
  | cons p fs ih =>
    obtain ⟨a, b⟩ := p
    cases rs <;> simp [distribute, ih]

theorem distribute_length [Inhabited Result] (fs : List (Nat × Input))
    (rs : List Result) :
    (distribute fs rs).length = fs.length := by
  have h := congrArg List.length (distribute_map_fst fs rs)
  simpa using h

theorem distribute_getD [Inhabited Input] [Inhabited Result]
    (fs : List (Nat × Input))
    (rs : List Result) (i : Nat) (hi : i < fs.length) :
    (distribute fs rs).getD i (0, default) =
      ((fs.getD i (0, default)).1,
        if i < rs.length then rs.getD i default else (default : Result)) := by
  induction fs generalizing rs i with
  | nil => simp at hi
  | cons p fs ih =>
    obtain ⟨a, b⟩ := p
    cases rs with
    | nil =>
      cases i with
      | zero => simp [distribute]
      | succ i =>
        have hi' : i < fs.length := by simpa using hi
        simpa [distribute] using ih ([] : List Result) i hi'
    | cons r rs =>
      cases i with
      | zero => simp [distribute]
      | succ i =>
        have hi' : i < fs.length := by simpa using hi
        simpa [distribute] using ih rs i hi'

theorem tagFrom_map_snd (n : Nat) (xs : List Input) :
    (tagFrom n xs).map Prod.snd = xs := by
  induction xs generalizing n with
  | nil => rfl
  | cons x xs ih => simp [tagFrom, ih]

theorem tagFrom_length (n : Nat) (xs : List Input) :
    (tagFrom n xs).length = xs.length := by
  induction xs generalizing n with
  | nil => rfl
  | cons x xs ih => simp [tagFrom, ih]

theorem mem_tagFrom_le (n : Nat) (xs : List Input) :
    ∀ p ∈ tagFrom n xs, n ≤ p.1 ∧ p.1 < n + xs.length := by
  induction xs generalizing n with
  | nil => simp [tagFrom]
  | cons x xs ih =>
    intro p hp
    simp only [tagFrom, List.mem_cons] at hp
    rcases hp with h | h
    · subst h
      simp only [List.length_cons]
      omega
    · have := ih (n + 1) p h
      simp only [List.length_cons]
      omega

theorem count_tagFrom_fst (n id : Nat) (xs : List Input) :
    ((tagFrom n xs).map Prod.fst).count id =
      if n ≤ id ∧ id < n + xs.length then 1 else 0 := by
  induction xs generalizing n with
  | nil =>
    simp only [tagFrom, List.map_nil, List.count_nil, List.length_nil]
    split_ifs with h <;> omega
  | cons x xs ih =>
    simp only [tagFrom, List.map_cons, List.count_cons, ih, List.length_cons]
    split_ifs <;> simp_all <;> omega

theorem commitsLoop_spec (xs : List Input) (s : State Input Result Ctx) :
    commitsLoop xs s =
      ((tagFrom s.nextId xs).map Prod.fst,
       { s with nextId := s.nextId + xs.length,
                queue := s.queue ++ tagFrom s.nextId xs }) := by
  induction xs generalizing s with
  | nil =>
    obtain ⟨n, q, l, b, r, mi, st, w⟩ := s
    simp [commitsLoop, tagFrom]
  | cons x xs ih =>
    obtain ⟨n, q, l, b, r, mi, st, w⟩ := s
    simp only [commitsLoop, ih, tagFrom, List.map_cons, Prod.mk.injEq,
      State.mk.injEq, List.length_cons, List.append_assoc, List.cons_append,
      List.nil_append, true_and, and_true]
    omega

theorem start_def [Inhabited Result] (loaded : Option Model) (mx : Nat)
    (ctx : Ctx) (s : State Input Result Ctx) :
    start loaded mx ctx s =
      (loaded.isSome,
       { s with run := loaded.isSome,
                log := s.log ++ s.queue.map (fun p => (p.1, (default : Result))),
                queue := [], stream := ctx, maxItems := mx,
                workerAlive := true }) := by
  obtain ⟨n, q, l, b, r, mi, st, w⟩ := s
  cases loaded <;> simp [start, stop_def]

theorem countLoad_append (l r : List (WEffect Model)) :
    countLoad (l ++ r) = countLoad l + countLoad r := by
  induction l with
  | nil => simp [countLoad]
  | cons e l ih => cases e <;> simp [countLoad, ih] <;> omega

theorem countReset_append (l r : List (WEffect Model)) :
    countReset (l ++ r) = countReset l + countReset r := by
  induction l with
  | nil => simp [countReset]
  | cons e l ih => cases e <;> simp [countReset, ih] <;> omega

theorem countLoad_replicate_forwards (n : Nat) (m : Model) :
    countLoad (List.replicate n (WEffect.forwardsCall m)) = 0 := by
  induction n with
  | zero => rfl
  | succ n ih => simp [List.replicate_succ, countLoad, ih]

theorem countReset_replicate_forwards (n : Nat) (m : Model) :
    countReset (List.replicate n (WEffect.forwardsCall m)) = 0 := by
  induction n with
  | zero => rfl
  | succ n ih => simp [List.replicate_succ, countReset, ih]

theorem filterMap_forwardsTarget_replicate (n : Nat) (m : Model) :
    (List.replicate n (WEffect.forwardsCall m)).filterMap forwardsTarget =
      List.replicate n m := by
  induction n with
  | zero => rfl
  | succ n ih => simp [List.replicate_succ, List.filterMap_cons,
      forwardsTarget, ih]

/-! Claim theorems. -/

/-- C2: calling `stop()` with M items still in the queue resolves every
one of those M items to the default-constructed `Result` (the flush
appends exactly one default resolution per queued item, M in total),
and `stop` returns only with the queue empty, the run flag cleared and
the worker thread joined and reset. -/
theorem stop_flushes_all_queued [Inhabited Result]
    (s : State Input Result Ctx) :
    (stop s).1.log = s.log ++ s.queue.map (fun p => (p.1, (default : Result))) ∧
    (stop s).1.log.length = s.log.length + s.queue.length ∧
    (stop s).1.queue = [] ∧
    (stop s).1.run = false ∧
    (stop s).1.workerAlive = false := by
  simp [stop_def]

/-- C3: when the model returns R results for a K-item batch with
R < K, the distribution loop resolves item i to result i for
i < R and to the default-constructed `Result` for R ≤ i < K, one
resolution per item; the shortfall produces no error. -/
theorem partial_batch_padding [Inhabited Input] [Inhabited Result]
    (fetch : List (Nat × Input)) (ret : List Result)
    (hR : ret.length < fetch.length) (i : Nat) (hi : i < fetch.length) :
    (distribute fetch ret).length = fetch.length ∧
    (i < ret.length →
      (distribute fetch ret).getD i (0, default) =
        ((fetch.getD i (0, default)).1, ret.getD i default)) ∧
    (ret.length ≤ i →
      (distribute fetch ret).getD i (0, default) =
        ((fetch.getD i (0, default)).1, (default : Result))) := by
  refine ⟨distribute_length fetch ret, ?_, ?_⟩
  · intro h
    rw [distribute_getD fetch ret i hi, if_pos h]
  · intro h
    rw [distribute_getD fetch ret i hi, if_neg (by omega)]

/-- Witness for C3 at fetch = [(0,10),(1,11),(2,12)], ret = [5], i = 2. -/
theorem partial_batch_padding_witness :
    (distribute [(0, 10), (1, 11), (2, 12)] [(5 : Nat)]).length = 3 ∧
    (2 < 1 →
      (distribute [(0, 10), (1, 11), (2, 12)] [(5 : Nat)]).getD 2 (0, default) =
        (([(0, 10), (1, 11), (2, 12)].getD 2 (0, default)).1,
          [(5 : Nat)].getD 2 default)) ∧
    (1 ≤ 2 →
      (distribute [(0, 10), (1, 11), (2, 12)] [(5 : Nat)]).getD 2 (0, default) =
        (([(0, 10), (1, 11), (2, 12)].getD 2 (0, default)).1, (default : Nat))) :=
  partial_batch_padding
    ([(0, 10), (1, 11), (2, 12)] : List (Nat × Nat)) [(5 : Nat)]
    (by decide) 2 (by decide)

/-- C4: a loader that yields no model makes `start` return false; the
run flag of the resulting state is false, and the worker's effect trace
is exactly the load call followed by the failure report — it never sets
the run flag and exits at once. -/
theorem start_load_failure [Inhabited Result] (mx : Nat) (ctx : Ctx)
    (s : State Input Result Ctx) (n : Nat) :
    (start (none : Option Model) mx ctx s).1 = false ∧
    (start (none : Option Model) mx ctx s).2.run = false ∧
    workerEffects (none : Option Model) n =
      [WEffect.loadCall, WEffect.statusSet false] := by
  refine ⟨?_, ?_, rfl⟩ <;> simp [start_def]

/-- C6: `commits` with K inputs appends all K items as one contiguous
block at the back of the queue inside its single critical section,
returns the K fresh handles in input order (handle i belongs to the
item holding input i), issues exactly one wake signal, and resolves
nothing. -/
theorem commits_contiguous_block (xs : List Input)
    (s : State Input Result Ctx) :
    (commits xs s).1 = (tagFrom s.nextId xs).map Prod.fst ∧
    (commits xs s).2.1.queue = s.queue ++ tagFrom s.nextId xs ∧
    (tagFrom s.nextId xs).map Prod.snd = xs ∧
    (commits xs s).1.length = xs.length ∧
    (commits xs s).2.2 = 1 ∧
    (commits xs s).2.1.nextId = s.nextId + xs.length ∧
    (commits xs s).2.1.log = s.log := by
  refine ⟨?_, ?_, tagFrom_map_snd s.nextId xs, ?_, rfl, ?_, ?_⟩ <;>
    simp [commits, commitsLoop_spec, tagFrom_length]

/-- C7: a `commit` on a stopped engine raises no error: it still
enqueues the item at the back of the queue and returns a fresh handle
with one wake signal, and at the next `stop` that item — like
everything queued at that point — is resolved to the
default-constructed `Result`, not to an error value. -/
theorem commit_after_stop [Inhabited Result] (s : State Input Result Ctx)
    (x : Input) (hstopped : s.run = false) :
    (commit x s).1 = s.nextId ∧
    (commit x s).2.2 = 1 ∧
    (commit x s).2.1.queue = s.queue ++ [(s.nextId, x)] ∧
    (stop (commit x s).2.1).1.log =
      s.log ++ (s.queue ++ [(s.nextId, x)]).map
        (fun p => (p.1, (default : Result))) := by
  refine ⟨rfl, rfl, rfl, ?_⟩
  simp [commit, stop_def]

/-- Witness for C7 on a concrete stopped engine state. -/
theorem commit_after_stop_witness :
    (commit 7 (State.mk 0 [] [] [] false 1 () false : State Nat Nat Unit)).1 = 0 ∧
    (commit 7 (State.mk 0 [] [] [] false 1 () false : State Nat Nat Unit)).2.2 = 1 ∧
    (commit 7 (State.mk 0 [] [] [] false 1 () false : State Nat Nat Unit)).2.1.queue =
      [] ++ [(0, 7)] ∧
    (stop (commit 7 (State.mk 0 [] [] [] false 1 () false : State Nat Nat Unit)).2.1).1.log =
      [] ++ (([] ++ [(0, 7)] : List (Nat × Nat)).map
        (fun p => (p.1, (default : Nat)))) :=
  commit_after_stop (State.mk 0 [] [] [] false 1 () false) 7 rfl

/-- C8: `stop` on an already-stopped engine (run flag clear, empty
queue, no worker thread) leaves the state unchanged; destruction
performs exactly a full `stop`; and `stop` is idempotent on every
state. -/
theorem stop_idempotent [Inhabited Result] (s : State Input Result Ctx)
    (h1 : s.run = false) (h2 : s.queue = []) (h3 : s.workerAlive = false) :
    (stop s).1 = s ∧ destruct s = s ∧
    ∀ t : State Input Result Ctx, (stop (stop t).1).1 = (stop t).1 := by
  have hs : (stop s).1 = s := by
    obtain ⟨n, q, l, b, r, mi, st, w⟩ := s
    simp only at h1 h2 h3
    subst h1; subst h2; subst h3
    simp [stop_def]
  refine ⟨hs, hs, ?_⟩
  intro t
  simp [stop_def]

/-- Witness for C8 on a concrete stopped engine state. -/
theorem stop_idempotent_witness :
    (stop (State.mk 3 [] [(0, 5)] [] false 1 () false : State Nat Nat Unit)).1 =
      State.mk 3 [] [(0, 5)] [] false 1 () false ∧
    destruct (State.mk 3 [] [(0, 5)] [] false 1 () false : State Nat Nat Unit) =
      State.mk 3 [] [(0, 5)] [] false 1 () false ∧
    ∀ t : State Nat Nat Unit, (stop (stop t).1).1 = (stop t).1 :=
  stop_idempotent (State.mk 3 [] [(0, 5)] [] false 1 () false) rfl rfl rfl

/-- C9: in every worker execution the loader is called exactly once;
the model is released exactly once when the load succeeded and never
when it failed (so at most once per run); and every `forwards` call of
the run is made on exactly the model this run's load produced — a run
never uses a model from any other source. -/
theorem model_load_release_once (loaded : Option Model) (n : Nat) :
    countLoad (workerEffects loaded n) = 1 ∧
    countReset (workerEffects loaded n) =
      (match loaded with | none => 0 | some _ => 1) ∧
    (workerEffects loaded n).filterMap forwardsTarget =
      (match loaded with | none => [] | some m => List.replicate n m) := by
  cases loaded with
  | none => refine ⟨rfl, rfl, rfl⟩
  | some m =>
    refine ⟨?_, ?_, ?_⟩
    · simp [workerEffects, countLoad, countLoad_append,
        countLoad_replicate_forwards]
    · simp [workerEffects, countReset, countReset_append,
        countReset_replicate_forwards]
    · simp [workerEffects, List.filterMap_cons, List.filterMap_append,
        forwardsTarget, filterMap_forwardsTarget_replicate]

/-- C5: a worker cycle that proceeds while running (run flag set, queue
nonempty) drains exactly min(max_items_processed, queue length) items —
the take-prefix of the queue, oldest first; their inputs are passed to
`forwards` in queue order together with the opaque stream context, the
batch is recorded, and result i of the returned sequence is assigned to
drained item i's promise. -/
theorem worker_cycle_drains_in_order [Inhabited Input] [Inhabited Result]
    (fw : List Input → Ctx → List Result) (s : State Input Result Ctx)
    (hrun : s.run = true) (hne : s.queue ≠ []) (i : Nat)
    (hi : i < (s.queue.take s.maxItems).length) :
    workerCycle fw s =
      { s with queue := s.queue.drop s.maxItems,
               log := s.log ++ distribute (s.queue.take s.maxItems)
                        (fw ((s.queue.take s.maxItems).map Prod.snd) s.stream),
               batches := s.batches ++ [s.queue.take s.maxItems] } ∧
    (s.queue.take s.maxItems).length = min s.maxItems s.queue.length ∧
    (distribute (s.queue.take s.maxItems)
        (fw ((s.queue.take s.maxItems).map Prod.snd) s.stream)).getD
          i (0, default) =
      (((s.queue.take s.maxItems).getD i (0, default)).1,
        if i < (fw ((s.queue.take s.maxItems).map Prod.snd) s.stream).length
        then (fw ((s.queue.take s.maxItems).map Prod.snd) s.stream).getD
          i default
        else (default : Result)) := by
  refine ⟨?_, List.length_take _ _, distribute_getD _ _ i hi⟩
  rw [workerCycle, if_neg (by simp [hrun]), if_neg (by simp [hne]),
    drainLoop_eq]

/-- Witness for C5: one item queued, batch cap 2, identity model. -/
theorem worker_cycle_drains_in_order_witness :
    (State.mk 1 [(0, 5)] [] [] true 2 () true : State Nat Nat Unit).run = true ∧
    (State.mk 1 [(0, 5)] [] [] true 2 () true : State Nat Nat Unit).queue ≠ [] ∧
    (workerCycle (fun (xs : List Nat) (_ : Unit) => xs)
        (State.mk 1 [(0, 5)] [] [] true 2 () true) =
      { State.mk 1 [(0, 5)] ([] : List (Nat × Nat)) [] true 2 () true with
          queue := ([(0, 5)] : List (Nat × Nat)).drop 2,
          log := [] ++ distribute (([(0, 5)] : List (Nat × Nat)).take 2)
            ((fun (xs : List Nat) (_ : Unit) => xs)
              ((([(0, 5)] : List (Nat × Nat)).take 2).map Prod.snd) ()),
          batches := [] ++ [([(0, 5)] : List (Nat × Nat)).take 2] } ∧
    (([(0, 5)] : List (Nat × Nat)).take 2).length =
      min 2 ([(0, 5)] : List (Nat × Nat)).length ∧
    (distribute (([(0, 5)] : List (Nat × Nat)).take 2)
        ((fun (xs : List Nat) (_ : Unit) => xs)
          ((([(0, 5)] : List (Nat × Nat)).take 2).map Prod.snd) ())).getD
          0 (0, default) =
      (((([(0, 5)] : List (Nat × Nat)).take 2).getD 0 (0, default)).1,
        if 0 < ((fun (xs : List Nat) (_ : Unit) => xs)
            ((([(0, 5)] : List (Nat × Nat)).take 2).map Prod.snd) ()).length
        then ((fun (xs : List Nat) (_ : Unit) => xs)
            ((([(0, 5)] : List (Nat × Nat)).take 2).map Prod.snd) ()).getD
          0 default
        else (default : Nat))) :=
  ⟨rfl, by decide,
    worker_cycle_drains_in_order (fun (xs : List Nat) (_ : Unit) => xs)
      (State.mk 1 [(0, 5)] [] [] true 2 () true) rfl (by decide) 0 (by decide)⟩

theorem count_map_fst_eq_zero {α : Type} {L : List (Nat × α)} {n id : Nat}
    (h : ∀ p ∈ L, p.1 < n) (hge : n ≤ id) :
    (L.map Prod.fst).count id = 0 := by
  rw [List.count_eq_zero]
  intro hmem
  rw [List.mem_map] at hmem
  obtain ⟨p, hp, hfst⟩ := hmem
  have := h p hp
  omega

theorem inv_enqueueBlock (s : State Input Result Ctx) (xs : List Input)
    (h : Inv s) :
    Inv { s with nextId := s.nextId + xs.length,
                 queue := s.queue ++ tagFrom s.nextId xs } := by
  obtain ⟨hq, hl, hc⟩ := h
  refine ⟨?_, ?_, ?_⟩
  · intro p hp
    simp only [List.mem_append] at hp
    rcases hp with hp | hp
    · have := hq p hp
      simp only
      omega
    · have := mem_tagFrom_le s.nextId xs p hp
      simp only
      omega
  · intro e he
    have := hl e he
    simp only
    omega
  · intro id hid
    simp only [resolveCount, queueCount, List.map_append, List.count_append,
      count_tagFrom_fst] at hid ⊢
    by_cases hlt : id < s.nextId
    · have := hc id hlt
      simp only [resolveCount, queueCount] at this
      rw [if_neg (by omega)]
      omega
    · have h0 : (s.log.map Prod.fst).count id = 0 :=
        count_map_fst_eq_zero hl (by omega)
      have h1 : (s.queue.map Prod.fst).count id = 0 :=
        count_map_fst_eq_zero hq (by omega)
      rw [if_pos (by omega)]
      omega

theorem inv_workerCycle [Inhabited Result]
    (fw : List Input → Ctx → List Result) (s : State Input Result Ctx)
    (h : Inv s) : Inv (workerCycle fw s) := by
  obtain ⟨hq, hl, hc⟩ := h
  rw [workerCycle]
  split
  · exact ⟨hq, hl, hc⟩
  · split
    · exact ⟨hq, hl, hc⟩
    · simp only [drainLoop_eq]
      refine ⟨?_, ?_, ?_⟩
      · intro p hp
        exact hq p (List.Sublist.subset (List.drop_sublist _ _) hp)
      · intro e he
        simp only [List.mem_append] at he
        rcases he with he | he
        · exact hl e he
        · have hmem : e.1 ∈ (distribute (s.queue.take s.maxItems)
              (fw ((s.queue.take s.maxItems).map Prod.snd) s.stream)).map
                Prod.fst := List.mem_map_of_mem Prod.fst he
          rw [distribute_map_fst, List.mem_map] at hmem
          obtain ⟨p, hp, hfst⟩ := hmem
          rw [← hfst]
          exact hq p (List.Sublist.subset (List.take_sublist _ _) hp)
      · intro id hid
        have hsplit : (s.queue.map Prod.fst).count id =
            ((s.queue.take s.maxItems).map Prod.fst).count id +
              ((s.queue.drop s.maxItems).map Prod.fst).count id := by
          conv_lhs => rw [← List.take_append_drop s.maxItems s.queue]
          rw [List.map_append, List.count_append]
        have hone := hc id hid
        simp only [resolveCount, queueCount] at hone
        rw [hsplit] at hone
        simp only [resolveCount, queueCount, List.map_append,
          List.count_append, distribute_map_fst]
        omega

theorem inv_stop [Inhabited Result] (s : State Input Result Ctx)
    (h : Inv s) : Inv (stop s).1 := by
  obtain ⟨hq, hl, hc⟩ := h
  rw [stop_def]
  refine ⟨by simp, ?_, ?_⟩
  · intro e he
    simp only [List.mem_append, List.mem_map] at he
    rcases he with he | ⟨p, hp, he⟩
    · exact hl e he
    · have := hq p hp
      simp only at this ⊢
      rw [← he]
      omega
  · intro id hid
    simp only [resolveCount, queueCount, List.map_append, List.count_append,
      List.map_map, List.map_nil, List.count_nil] at hid ⊢
    have hcomp : (Prod.fst ∘ fun p : Nat × Input => (p.1, (default : Result))) =
        Prod.fst := rfl
    rw [hcomp]
    have := hc id hid
    simp only [resolveCount, queueCount] at this
    omega

theorem inv_step [Inhabited Result] (fw : List Input → Ctx → List Result)
    (s : State Input Result Ctx) (e : Event Input) (h : Inv s) :
    Inv (step fw s e) := by
  cases e with
  | commit x =>
    have hb := inv_enqueueBlock s [x] h
    simpa [step, cpm.commit, tagFrom] using hb
  | commits xs =>
    have hb := inv_enqueueBlock s xs h
    simpa [step, cpm.commits, commitsLoop_spec] using hb
  | cycle => exact inv_workerCycle fw s h
  | stop => exact inv_stop s h

theorem inv_runTrace [Inhabited Result] (fw : List Input → Ctx → List Result)
    (s : State Input Result Ctx) (tr : List (Event Input)) (h : Inv s) :
    Inv (runTrace fw s tr) := by
  induction tr generalizing s with
  | nil => exact h
  | cons e tr ih => exact ih _ (inv_step fw s e h)

theorem resolveCount_le_one_of_inv (s : State Input Result Ctx)
    (h : Inv s) (id : Nat) : resolveCount id s ≤ 1 := by
  obtain ⟨hq, hl, hc⟩ := h
  by_cases hid : id < s.nextId
  · have := hc id hid
    omega
  · have h0 : (s.log.map Prod.fst).count id = 0 :=
      count_map_fst_eq_zero hl (by omega)
    simp only [resolveCount, h0]
    omega

/-- C1: starting from any state satisfying the promise-protocol
invariant (in particular any freshly started engine), after any
sequence of commits, worker cycles and stops followed by a final
`stop`, every allocated promise has been resolved exactly once — and
at every intermediate point it has been resolved at most once. The
single resolution is a computed model value, a padding default, or a
shutdown-flush default, the only writes the code performs. -/
theorem commit_resolves_exactly_once [Inhabited Result]
    (fw : List Input → Ctx → List Result) (s0 : State Input Result Ctx)
    (h0 : Inv s0) (tr : List (Event Input)) (id : Nat)
    (hid : id < (runTrace fw s0 tr).nextId) (n : Nat) :
    resolveCount id (runTrace fw s0 (tr ++ [Event.stop])) = 1 ∧
    resolveCount id (runTrace fw s0 (tr.take n)) ≤ 1 := by
  constructor
  · have hinv : Inv (runTrace fw s0 tr) := inv_runTrace fw s0 tr h0
    have happ : runTrace fw s0 (tr ++ [Event.stop]) =
        (stop (runTrace fw s0 tr)).1 := by
      simp [runTrace, List.foldl_append, step]
    rw [happ]
    obtain ⟨hq', hl', hc'⟩ := inv_stop (runTrace fw s0 tr) hinv
    have hnext : (stop (runTrace fw s0 tr)).1.nextId =
        (runTrace fw s0 tr).nextId := by rw [stop_def]
    have hq0 : queueCount id (stop (runTrace fw s0 tr)).1 = 0 := by
      rw [stop_def]
      simp [queueCount]
    have := hc' id (by omega)
    omega
  · exact resolveCount_le_one_of_inv _
      (inv_runTrace fw s0 (tr.take n) h0) id

/-- Witness for C1: commit one item to a running engine, then stop. -/
theorem commit_resolves_exactly_once_witness :
    resolveCount 0 (runTrace (fun (xs : List Nat) (_ : Unit) => xs)
      (State.mk 0 [] [] [] true 1 () true)
      ([Event.commit 5] ++ [Event.stop])) = 1 ∧
    resolveCount 0 (runTrace (fun (xs : List Nat) (_ : Unit) => xs)
      (State.mk 0 [] [] [] true 1 () true)
      (([Event.commit 5]).take 1)) ≤ 1 :=
  commit_resolves_exactly_once (fun (xs : List Nat) (_ : Unit) => xs)
    (State.mk 0 [] [] [] true 1 () true)
    (by
      refine ⟨by simp, by simp, ?_⟩
      intro id h
      exact absurd h (Nat.not_lt_zero id))
    [Event.commit 5] 0 (by decide) 1

theorem stale_preserved [Inhabited Result]
    (fw : List Input → Ctx → List Result) (s : State Input Result Ctx)
    (e : Event Input) (id : Nat)
    (h1 : id < s.nextId) (h2 : id ∉ s.queue.map Prod.fst)
    (h3 : ∀ b ∈ s.batches, id ∉ b.map Prod.fst) :
    id < (step fw s e).nextId ∧
    id ∉ (step fw s e).queue.map Prod.fst ∧
    ∀ b ∈ (step fw s e).batches, id ∉ b.map Prod.fst := by
  cases e with
  | commit x =>
    refine ⟨by simp only [step, cpm.commit]; omega, ?_,
      by simpa [step, cpm.commit] using h3⟩
    simp only [step, cpm.commit, List.map_append, List.mem_append,
      List.map_cons, List.map_nil, List.mem_cons, List.not_mem_nil, or_false]
    intro hmem
    rcases hmem with hmem | hmem
    · exact h2 hmem
    · omega
  | commits xs =>
    refine ⟨by simp only [step, cpm.commits, commitsLoop_spec]; omega, ?_,
      by simpa [step, cpm.commits, commitsLoop_spec] using h3⟩
    simp only [step, cpm.commits, commitsLoop_spec, List.map_append,
      List.mem_append]
    intro hmem
    rcases hmem with hmem | hmem
    · exact h2 hmem
    · rw [List.mem_map] at hmem
      obtain ⟨p, hp, hfst⟩ := hmem
      have := mem_tagFrom_le s.nextId xs p hp
      omega
  | cycle =>
    simp only [step, workerCycle]
    split
    · exact ⟨h1, h2, h3⟩
    · split
      · exact ⟨h1, h2, h3⟩
      · simp only [drainLoop_eq]
        refine ⟨h1, ?_, ?_⟩
        · intro hmem
          rw [List.mem_map] at hmem
          obtain ⟨p, hp, hfst⟩ := hmem
          refine h2 ?_
          rw [List.mem_map]
          exact ⟨p, List.Sublist.subset (List.drop_sublist _ _) hp, hfst⟩
        · intro b hb
          simp only [List.mem_append, List.mem_cons, List.not_mem_nil,
            or_false] at hb
          rcases hb with hb | hb
          · exact h3 b hb
          · subst hb
            intro hmem
            rw [List.mem_map] at hmem
            obtain ⟨p, hp, hfst⟩ := hmem
            refine h2 ?_
            rw [List.mem_map]
            exact ⟨p, List.Sublist.subset (List.take_sublist _ _) hp, hfst⟩
  | stop =>
    refine ⟨?_, ?_, ?_⟩ <;> simp only [step, stop_def]
    · exact h1
    · simp
    · exact h3

theorem stale_preserved_trace [Inhabited Result]
    (fw : List Input → Ctx → List Result) (s : State Input Result Ctx)
    (tr : List (Event Input)) (id : Nat)
    (h1 : id < s.nextId) (h2 : id ∉ s.queue.map Prod.fst)
    (h3 : ∀ b ∈ s.batches, id ∉ b.map Prod.fst) :
    ∀ b ∈ (runTrace fw s tr).batches, id ∉ b.map Prod.fst := by
  induction tr generalizing s with
  | nil => exact h3
  | cons e tr ih =>
    obtain ⟨g1, g2, g3⟩ := stale_preserved fw s e id h1 h2 h3
    exact ih (step fw s e) g1 g2 g3

/-- C10: an item committed while the engine is not running is never
passed to any model: a subsequent `start` performs a full stop first,
which resolves the stale item to the default `Result`, and in the whole
run that follows (any sequence of commits, worker cycles and stops) no
batch handed to `forwards` ever contains that item's promise. -/
theorem stale_item_never_forwarded [Inhabited Result]
    (fw : List Input → Ctx → List Result) (loaded : Option Model)
    (mx : Nat) (ctx : Ctx) (s : State Input Result Ctx)
    (hrun : s.run = false) (id : Nat)
    (hq : id ∈ s.queue.map Prod.fst)
    (hlt : ∀ p ∈ s.queue, p.1 < s.nextId)
    (hb : ∀ b ∈ s.batches, id ∉ b.map Prod.fst)
    (tr : List (Event Input)) :
    (id, (default : Result)) ∈ (start loaded mx ctx s).2.log ∧
    ∀ b ∈ (runTrace fw (start loaded mx ctx s).2 tr).batches,
      id ∉ b.map Prod.fst := by
  have hid : id < s.nextId := by
    rw [List.mem_map] at hq
    obtain ⟨p, hp, hfst⟩ := hq
    have := hlt p hp
    omega
  constructor
  · rw [start_def]
    simp only [List.mem_append, List.mem_map]
    right
    rw [List.mem_map] at hq
    obtain ⟨p, hp, hfst⟩ := hq
    exact ⟨p, hp, by rw [hfst]⟩
  · refine stale_preserved_trace fw (start loaded mx ctx s).2 tr id ?_ ?_ ?_
    · rw [start_def]
      exact hid
    · rw [start_def]
      simp
    · rw [start_def]
      exact hb

/-- Witness for C10: one stale item, successful restart, a later commit
and worker cycle. -/
theorem stale_item_never_forwarded_witness :
    ((0 : Nat), (default : Nat)) ∈
      (start (some 0) 1 ()
        (State.mk 1 [(0, 9)] [] [] false 1 () false : State Nat Nat Unit)).2.log ∧
    ∀ b ∈ (runTrace (fun (xs : List Nat) (_ : Unit) => xs)
        (start (some 0) 1 ()
          (State.mk 1 [(0, 9)] [] [] false 1 () false : State Nat Nat Unit)).2
        [Event.commit 3, Event.cycle]).batches,
      (0 : Nat) ∉ b.map Prod.fst :=
  stale_item_never_forwarded (fun (xs : List Nat) (_ : Unit) => xs)
    (some 0) 1 () (State.mk 1 [(0, 9)] [] [] false 1 () false)
    rfl 0 (by decide) (by decide) (by decide) [Event.commit 3, Event.cycle]

end cpm
